import Mathlib

/-
  Verification development for the IT8951 e-paper driver.

  Shallow-embedding conventions:
  * Machine integers are modeled as `Nat`/`Int`; Rust casts and wrapping
    arithmetic (release profile) are written out as explicit `% 2^w`.
  * Rust iterators become fuel-indexed chunk-list functions; the fuel chosen
    is proved sufficient.
  * Fallible code returns `Option`/`Except`; an assertion failure maps to `none`.
-/

namespace It8951

/-- Rust `as u16` cast of a signed value (two's-complement truncation). -/
def u16cast (v : Int) : Nat := (v % 65536).toNat

/-- Rust `as u32` cast of a signed value (two's-complement truncation). -/
def u32cast (v : Int) : Nat := (v % 4294967296).toNat

/-- Embeds `embedded_graphics_core::primitives::Rectangle`: `top_left` is
`(x, y) : i32`, `size` is `(w, h) : u32`. -/
structure Rect where
  x : Int
  y : Int
  w : Nat
  h : Nat
deriving DecidableEq

/-- Embeds `AreaImgInfo` (src/lib.rs): a display area in `u16` panel coordinates. -/
structure AreaImgInfo where
  area_x : Nat
  area_y : Nat
  area_w : Nat
  area_h : Nat
deriving DecidableEq

/-- Embeds `get_entires_per_row` (src/serialization_helper.rs): u16 words needed
per display row including left-edge alignment.  The `u32` addition
`area.size.width + alignment_pixels` wraps mod 2^32, and `u32::div_ceil 4`
is `s / 4 + (s % 4 != 0)`. -/
def get_entires_per_row (area : Rect) : Nat :=
  let alignment_pixels := u32cast area.x % 4
  let s := (area.w + alignment_pixels) % 4294967296
  s / 4 + (if s % 4 = 0 then 0 else 1)

/-- Embeds the u16 wrapping subtraction performed (release profile) by the
coordinate arithmetic of `rotate_area_info` (src/lib.rs). -/
def sub16 (a b : Nat) : Nat := (a + 65536 - b) % 65536

/-- Embeds `MemoryConverterRotation` (src/memory_converter_settings.rs). -/
inductive Rotation
  | rotate0
  | rotate90
  | rotate180
  | rotate270
deriving DecidableEq

/-- Embeds `rotate_area_info` (src/lib.rs lines 503-523): maps a logical area to
panel-physical coordinates for the configured rotation, given panel width `pw`
and height `ph`. -/
def rotate_area_info (rotation : Rotation) (pw ph : Nat) (area : AreaImgInfo) :
    AreaImgInfo :=
  match rotation with
  | .rotate0 => area
  | .rotate90 =>
      ⟨area.area_y, sub16 (sub16 ph area.area_w) area.area_x, area.area_h, area.area_w⟩
  | .rotate180 =>
      ⟨sub16 (sub16 pw area.area_w) area.area_x, sub16 (sub16 ph area.area_h) area.area_y,
        area.area_w, area.area_h⟩
  | .rotate270 =>
      ⟨sub16 (sub16 pw area.area_h) area.area_y, area.area_x, area.area_h, area.area_w⟩

/-- Embeds `interface::Error` (src/interface.rs lines 10-20). -/
inductive InterfaceError
  | spiError
  | gpioError
  | busyTimeout
  | bufferAlignment
deriving DecidableEq

/-- Embeds the 4-byte frame built by `IT8951SPIInterface::write_command`
(src/interface.rs lines 144-156): command prefix `0x6000` then the big-endian
opcode.  The preceding busy-wait transfers no bytes. -/
def write_command_frame (cmd : Nat) : List Nat :=
  [0x60, 0x00, (cmd / 256) % 256, cmd % 256]

/-- Embeds the 4-byte frame built by `IT8951SPIInterface::write_data`
(src/interface.rs lines 111-124): data prefix `0x0000` then the big-endian
16-bit value. -/
def write_data_frame (data : Nat) : List Nat :=
  [0x00, 0x00, (data / 256) % 256, data % 256]

/-- Embeds `IT8951SPIInterface::write_multi_data` (src/interface.rs lines
126-142) on a ready bus: odd payload length is the `BufferAlignment` error,
otherwise the SPI transaction writes the 2-byte data prefix once followed by
the raw payload. -/
def write_multi_data (data : List Nat) : Except InterfaceError (List Nat) :=
  if data.length % 2 > 0 then .error .bufferAlignment
  else .ok ([0x00, 0x00] ++ data)

/-- Embeds `embedded_graphics_core::Pixel<Gray4>`: a point with a 4-bit gray
color. -/
structure Pixel where
  x : Int
  y : Int
  color : Nat
deriving DecidableEq

/-- Embeds the coordinate guard of `draw_iter` (src/lib.rs line 624):
`(coord.x >= 0 && coord.x < width) || (coord.y >= 0 || coord.y < height)`. -/
def draw_iter_guard (width height : Int) (p : Pixel) : Bool :=
  (decide (p.x ≥ 0) && decide (p.x < width)) || (decide (p.y ≥ 0) || decide (p.y < height))

/-- Embeds the 2-byte payload built by `draw_iter` (src/lib.rs lines 625-636).
Rust `%` on `i32` is truncated remainder (`Int.tmod`); the release profile
masks the `u8` shift amount mod 8, and the `u8` result keeps the low 8 bits. -/
def draw_iter_data (p : Pixel) : List Nat :=
  let value := ((p.color % 16) <<< ((p.x.tmod 2 * 4) % 8).toNat) % 256
  if p.x.tmod 4 > 1 then [value, 0x00] else [0x00, value]

/-- Embeds the loop of `draw_iter` (src/lib.rs lines 611-652): the sequence of
`load_image_area` transactions issued, one `(AreaImgInfo, data)` pair per pixel
that passes the coordinate guard, with coordinates cast `as u16`. -/
def draw_iter_calls (width height : Int) (pixels : List Pixel) :
    List (AreaImgInfo × List Nat) :=
  pixels.filterMap fun p =>
    if draw_iter_guard width height p then
      some (⟨u16cast p.x, u16cast p.y, 1, 1⟩, draw_iter_data p)
    else none

/-- Embeds the body of the pixel loop of `PixelSerializer::next`
(src/pixel_serializer.rs lines 40-46): compute `byte_pos` and `shift` with
Rust `i32` truncated division/remainder (`Int.tdiv`/`Int.tmod`), push one zero
word when `bytes.len() <= byte_pos`, then or the color nibble into the word.
The release profile masks the `u16` shift amount mod 16; an out-of-range
`bytes[byte_pos]` (a Rust index panic, unreachable for in-order rows) is a
no-op `List.set`. -/
def pushPixel (area : Rect) (p : Pixel) (bytes : List Nat) : List Nat :=
  let byte_pos := ((p.x - area.x.tdiv 4 * 4).tdiv 4).toNat
  let bytes1 := if bytes.length ≤ byte_pos then bytes ++ [0] else bytes
  bytes1.set byte_pos
    (bytes1.getD byte_pos 0 ||| (p.color % 16) <<< ((p.x.tmod 4 * 4) % 16).toNat)

/-- Embeds the `for` loop of `PixelSerializer::next` (src/pixel_serializer.rs
lines 39-53): consume pixels from the source, filling the row buffer and
counting, until the end-of-row abort condition
`point.x >= area.top_left.x + area.size.width - 1` or source exhaustion.
Returns the buffer, the pixel counter and the unconsumed pixels. -/
def consumePixels (area : Rect) : List Pixel → List Nat → Nat → List Nat × Nat × List Pixel
  | [], bytes, cnt => (bytes, cnt, [])
  | p :: rest, bytes, cnt =>
    let bytes2 := pushPixel area p bytes
    if p.x ≥ area.x + (area.w : Int) - 1 then (bytes2, cnt + 1, rest)
    else consumePixels area rest bytes2 (cnt + 1)

/-- Embeds `PixelSerializer::next` (src/pixel_serializer.rs lines 29-67) as a
function of the row counter and the remaining pixel source: `None` when no
pixel was consumed, otherwise one single-row chunk whose `area_w` is the pixel
counter (a `u16`). -/
def pixelSerNext (area : Rect) (row : Int) (pixels : List Pixel) :
    Option ((AreaImgInfo × List Nat) × (Int × List Pixel)) :=
  let row1 := row + 1
  let r := consumePixels area pixels [] 0
  if r.1.isEmpty then none
  else
    some ((⟨u16cast area.x, u16cast (area.y + row1 - 1), r.2.1 % 65536, 1⟩, r.1),
      (row1, r.2.2))

/-- Fuel-indexed iteration of `pixelSerNext`. -/
def pixelChunksAux (area : Rect) : Nat → Int → List Pixel → List (AreaImgInfo × List Nat)
  | 0, _, _ => []
  | fuel + 1, row, pixels =>
    match pixelSerNext area row pixels with
    | none => []
    | some (c, (row2, rest)) => c :: pixelChunksAux area fuel row2 rest

/-- All chunks emitted by `PixelSerializer` over a pixel source.  Fuel
`pixels.length + 1` suffices because every emitted chunk consumes at least one
source pixel; fuel-independence is proved in `pixelChunksAux_fuel`. -/
def PixelSerializer.chunks (area : Rect) (pixels : List Pixel) :
    List (AreaImgInfo × List Nat) :=
  pixelChunksAux area (pixels.length + 1) 0 pixels

/-- Modelled from the spec: one row of the external point-iteration
collaborator (embedded-graphics `Rectangle::points`), left to right. -/
def rowPoints (yj : Int) : Int → Nat → List (Int × Int)
  | _, 0 => []
  | xi, k + 1 => (xi, yj) :: rowPoints yj (xi + 1) k

/-- Modelled from the spec: the external point-iteration collaborator —
row-major points of a rectangle (y outer, top to bottom; x inner, left to
right). -/
def rectPointsAux (x0 : Int) (w : Nat) : Int → Nat → List (Int × Int)
  | _, 0 => []
  | yj, hk + 1 => rowPoints yj x0 w ++ rectPointsAux x0 w (yj + 1) hk

/-- Row-major points of a rectangle. -/
def rectPoints (r : Rect) : List (Int × Int) := rectPointsAux r.x r.w r.y r.h

/-- Modelled from the spec: the external `Rectangle::contains` collaborator. -/
def Rect.containsB (r : Rect) (p : Int × Int) : Bool :=
  decide (r.x ≤ p.1) && decide (p.1 < r.x + (r.w : Int)) &&
    decide (r.y ≤ p.2) && decide (p.2 < r.y + (r.h : Int))

/-- Modelled from the spec: the external rectangle-intersection collaborator —
the overlap of the two rectangles, or the zero rectangle when they are
disjoint. -/
def Rect.intersection (a b : Rect) : Rect :=
  let tlx := max a.x b.x
  let tly := max a.y b.y
  let brx := min (a.x + (a.w : Int)) (b.x + (b.w : Int))
  let bry := min (a.y + (a.h : Int)) (b.y + (b.h : Int))
  if tlx < brx ∧ tly < bry then ⟨tlx, tly, (brx - tlx).toNat, (bry - tly).toNat⟩
  else ⟨0, 0, 0, 0⟩

/-- Embeds `convert_color_to_pixel_iterator` (src/pixel_serializer.rs lines
70-81): zip the area's points with the colors, keep those inside the drawable
(clipped) area, and wrap them as pixels. -/
def convert_color_to_pixel_iterator (area bounding_box : Rect)
    (colors : List Nat) : List Pixel :=
  let drawable := Rect.intersection area bounding_box
  (((rectPoints area).zip colors).filter fun pc => drawable.containsB pc.1).map
    fun pc => ⟨pc.1.1, pc.1.2, pc.2⟩

/-- One row of pixels starting at a given x coordinate; used to describe the
shape of the zipped point/color sequence. -/
def mkRowPix (yj : Int) : Int → List Nat → List Pixel
  | _, [] => []
  | xi, c :: cs => ⟨xi, yj, c⟩ :: mkRowPix yj (xi + 1) cs

/-- Subset relation on rectangles (the area lies inside the bounding box). -/
def Rect.subRect (a b : Rect) : Prop :=
  b.x ≤ a.x ∧ a.x + (a.w : Int) ≤ b.x + (b.w : Int) ∧
    b.y ≤ a.y ∧ a.y + (a.h : Int) ≤ b.y + (b.h : Int)

instance (a b : Rect) : Decidable (a.subRect b) :=
  inferInstanceAs (Decidable (_ ∧ _ ∧ _ ∧ _))

/-- Embeds `DevInfo` (src/lib.rs lines 66-79). -/
structure DevInfo where
  panel_width : Nat
  panel_height : Nat
  memory_address : Nat
  firmware_version : String
  lut_version : String
deriving DecidableEq

/-- Embeds the three typestate phases of the driver (src/lib.rs lines 114-121):
`Run`, `PowerDown` and `Off`. -/
inductive Phase
  | off
  | run
  | powerDown
deriving DecidableEq

/-- Embeds the data of an `IT8951` driver value relevant to device-info
tracking: its typestate phase and its `dev_info` field. -/
structure DriverState where
  phase : Phase
  dev_info : Option DevInfo
deriving DecidableEq

/-- Embeds `IT8951::new` / `new_with_mcs` (src/lib.rs lines 145-168): the fresh
`Off` driver with `dev_info: None`. -/
def newDriver : DriverState := ⟨.off, none⟩

/-- Embeds the successful path of `IT8951::<_, Off>::init` (src/lib.rs lines
173-190): the returned `Run` driver stores `Some dev_info`, where `info` is the
device info read from the bus by `get_system_info`. -/
def initDriver (_d : DriverState) (info : DevInfo) : DriverState := ⟨.run, some info⟩

/-- Embeds the successful path of `IT8951::attach` (src/lib.rs lines 194-212):
the returned `Run` driver stores `Some dev_info`. -/
def attachDriver (info : DevInfo) : DriverState := ⟨.run, some info⟩

/-- Embeds `IT8951::<_, Run>::sleep` (src/lib.rs lines 430-433): `into_state`
keeps `dev_info`. -/
def sleepDriver (d : DriverState) : DriverState := ⟨.powerDown, d.dev_info⟩

/-- Embeds `IT8951::<_, Run>::standby` (src/lib.rs lines 437-440). -/
def standbyDriver (d : DriverState) : DriverState := ⟨.powerDown, d.dev_info⟩

/-- Embeds `IT8951::<_, PowerDown>::sys_run` (src/lib.rs lines 526-533):
`into_state` keeps `dev_info`. -/
def sysRunDriver (d : DriverState) : DriverState := ⟨.run, d.dev_info⟩

/-- Driver values reachable through the public API: `new`, `attach`, `init`,
`sleep`, `standby`, `sys_run`.  The phase guards mirror the typestate on which
each method is defined (`init` on `Off`, `sleep`/`standby` on `Run`, `sys_run`
on `PowerDown`). -/
inductive Reachable : DriverState → Prop
  | new : Reachable newDriver
  | attach (info : DevInfo) : Reachable (attachDriver info)
  | init (d : DriverState) (info : DevInfo) :
      Reachable d → d.phase = .off → Reachable (initDriver d info)
  | sleep (d : DriverState) : Reachable d → d.phase = .run → Reachable (sleepDriver d)
  | standby (d : DriverState) : Reachable d → d.phase = .run → Reachable (standbyDriver d)
  | sysRun (d : DriverState) : Reachable d → d.phase = .powerDown → Reachable (sysRunDriver d)

/-- Embeds `IT8951::<_, Run>::get_dev_info` (src/lib.rs lines 217-219):
`self.dev_info.clone().unwrap()`, where `none` stands for the panic of
`unwrap`. -/
def get_dev_info (d : DriverState) : Option DevInfo := d.dev_info

/-- Embeds `OriginDimensions::size` for the driver (src/lib.rs lines 658-668):
unwraps `dev_info` and swaps the panel dimensions for 90/270 degree rotation;
`none` stands for the panic of `unwrap`. -/
def sizeDriver (rotation : Rotation) (d : DriverState) : Option (Nat × Nat) :=
  d.dev_info.map fun info =>
    match rotation with
    | .rotate0 => (info.panel_width, info.panel_height)
    | .rotate180 => (info.panel_width, info.panel_height)
    | .rotate90 => (info.panel_height, info.panel_width)
    | .rotate270 => (info.panel_height, info.panel_width)

/-- Embeds the `dev_info` access of `rotate_area_info` (src/lib.rs line 505):
`self.dev_info.as_ref().expect(..)`; `none` stands for the panic. -/
def rotate_area_info_driver (rotation : Rotation) (d : DriverState)
    (area : AreaImgInfo) : Option AreaImgInfo :=
  d.dev_info.map fun info =>
    rotate_area_info rotation info.panel_width info.panel_height area

/-- Embeds `AreaSerializer` (src/area_serializer.rs lines 9-13). -/
structure AreaSerializer where
  area : Rect
  rows_per_step : Nat
  buffer : List Nat
deriving DecidableEq

/-- Embeds `AreaSerializer::new` (src/area_serializer.rs lines 16-32).  `none`
stands for a construction panic: the two `assert!`s (odd buffer size; buffer
too small for one row) and the division by zero when a row needs 0 bytes. -/
def AreaSerializer.new (area : Rect) (color : Nat) (buffer_size : Nat) :
    Option AreaSerializer :=
  let raw_color := color % 16
  let data_entry := (raw_color <<< 4) ||| raw_color
  if buffer_size % 2 ≠ 0 then none
  else
    let entries_per_row := get_entires_per_row area * 2
    if entries_per_row = 0 then none
    else
      let rows_per_step := min (buffer_size / entries_per_row) area.h
      if rows_per_step = 0 then none
      else some ⟨area, rows_per_step, List.replicate (entries_per_row * rows_per_step) data_entry⟩

/-- Embeds `AreaSerializerIterator::next` (src/area_serializer.rs lines 51-70)
as a function of the iterator's `row` cursor: the emitted chunk (with the
`as u16` casts of the source) together with the updated cursor. -/
def areaIterNext (s : AreaSerializer) (row : Nat) :
    Option ((AreaImgInfo × List Nat) × Nat) :=
  if row ≥ s.area.h then none
  else
    let start_row := row
    let row2 := min (start_row + s.rows_per_step) s.area.h
    some ((⟨u16cast s.area.x, u16cast (s.area.y + (start_row : Int)),
            s.area.w % 65536, (row2 - start_row) % 65536⟩, s.buffer), row2)

/-- Fuel-indexed iteration of `areaIterNext`. -/
def areaChunksAux (s : AreaSerializer) : Nat → Nat → List (AreaImgInfo × List Nat)
  | 0, _ => []
  | fuel + 1, row =>
    match areaIterNext s row with
    | none => []
    | some (c, row2) => c :: areaChunksAux s fuel row2

/-- All chunks emitted by `AreaSerializerIterator` over a serializer.  Fuel
`s.area.h` suffices because every emitted chunk advances the cursor by at
least one row; fuel-independence is proved in `areaChunksAux_fuel`. -/
def AreaSerializer.chunks (s : AreaSerializer) : List (AreaImgInfo × List Nat) :=
  areaChunksAux s s.area.h 0

/- ------------------------------------------------------------------ -/
/- Helper lemmas                                                       -/
/- ------------------------------------------------------------------ -/

theorem sub16_lt (a b : Nat) : sub16 a b < 65536 :=
  Nat.mod_lt _ (by norm_num)

theorem sub16_sub16 (a x : Nat) (hx : x < 65536) : sub16 a (sub16 a x) = x := by
  unfold sub16
  omega

theorem AreaSerializer.new_some {area : Rect} {color buffer_size : Nat}
    {s : AreaSerializer} (h : AreaSerializer.new area color buffer_size = some s) :
    s.area = area
      ∧ s.rows_per_step = min (buffer_size / (get_entires_per_row area * 2)) area.h
      ∧ 1 ≤ s.rows_per_step ∧ buffer_size % 2 = 0 ∧ 1 ≤ get_entires_per_row area := by
  simp only [AreaSerializer.new] at h
  split_ifs at h with h1 h2 h3
  all_goals first
  | exact Option.noConfusion h
  | (injection h with h; subst h;
      exact ⟨rfl, rfl, Nat.pos_of_ne_zero h3, by omega, by omega⟩)

theorem areaChunksAux_of_le {s : AreaSerializer} (fuel row : Nat)
    (h : s.area.h ≤ row) : areaChunksAux s fuel row = [] := by
  cases fuel with
  | zero => rfl
  | succ fuel => simp [areaChunksAux, areaIterNext, h]

theorem areaIterNext_of_lt {s : AreaSerializer} (row : Nat) (h : row < s.area.h) :
    areaIterNext s row
      = some ((⟨u16cast s.area.x, u16cast (s.area.y + (row : Int)),
          s.area.w % 65536, (min (row + s.rows_per_step) s.area.h - row) % 65536⟩,
          s.buffer), min (row + s.rows_per_step) s.area.h) := by
  simp [areaIterNext, not_le.mpr h]

theorem areaChunksAux_fuel {s : AreaSerializer} (hrps : 1 ≤ s.rows_per_step) :
    ∀ fuel fuel' row, s.area.h ≤ row + fuel → s.area.h ≤ row + fuel' →
      areaChunksAux s fuel row = areaChunksAux s fuel' row := by
  intro fuel
  induction fuel with
  | zero =>
      intro fuel' row h h'
      rw [areaChunksAux_of_le fuel' row (by omega)]
      rfl
  | succ fuel ih =>
      intro fuel' row h h'
      by_cases hrow : s.area.h ≤ row
      · rw [areaChunksAux_of_le _ row hrow, areaChunksAux_of_le _ row hrow]
      · push_neg at hrow
        cases fuel' with
        | zero => omega
        | succ fuel' =>
            simp only [areaChunksAux, areaIterNext_of_lt row hrow]
            rw [ih fuel' (min (row + s.rows_per_step) s.area.h) (by omega) (by omega)]

theorem areaChunksAux_spec (s : AreaSerializer) (hrps : 1 ≤ s.rows_per_step)
    (hy : 0 ≤ s.area.y) (hbound : s.area.y.toNat + s.area.h ≤ 65535) :
    ∀ fuel row, s.area.h ≤ row + fuel →
      (((areaChunksAux s fuel row).map fun c => c.1.area_h).sum = s.area.h - row)
      ∧ (∀ c ∈ areaChunksAux s fuel row,
          1 ≤ c.1.area_h ∧ c.1.area_h ≤ s.rows_per_step)
      ∧ List.Chain' (fun a b => a.1.area_y + a.1.area_h = b.1.area_y)
          (areaChunksAux s fuel row)
      ∧ List.Chain' (fun a b => a.1.area_y < b.1.area_y) (areaChunksAux s fuel row)
      ∧ (row < s.area.h → ∃ c rest, areaChunksAux s fuel row = c :: rest
          ∧ c.1.area_y = s.area.y.toNat + row)
      ∧ (∀ c ∈ (areaChunksAux s fuel row).dropLast, c.1.area_h = s.rows_per_step) := by
  intro fuel
  induction fuel with
  | zero =>
      intro row hfuel
      have hrow : s.area.h ≤ row := by omega
      refine ⟨by simp [areaChunksAux]; omega, by simp [areaChunksAux],
        by simp [areaChunksAux], by simp [areaChunksAux], ?_, by simp [areaChunksAux]⟩
      intro hlt; omega
  | succ fuel ih =>
      intro row hfuel
      by_cases hrow : s.area.h ≤ row
      · clear ih
        rw [areaChunksAux_of_le _ row hrow]
        refine ⟨by simp; omega, by simp, by simp, by simp, ?_, by simp⟩
        intro hlt; omega
      · push_neg at hrow
        obtain ⟨row2, hrow2⟩ : ∃ r, min (row + s.rows_per_step) s.area.h = r := ⟨_, rfl⟩
        have hAy : u16cast (s.area.y + (row : Int)) = s.area.y.toNat + row := by
          unfold u16cast; omega
        have hAh : (row2 - row) % 65536 = row2 - row := Nat.mod_eq_of_lt (by omega)
        have hfl : s.area.h ≤ row2 + fuel := by omega
        have hsum2 : (row2 - row) + (s.area.h - row2) = s.area.h - row := by omega
        have hh1 : 1 ≤ row2 - row := by omega
        have hh2 : row2 - row ≤ s.rows_per_step := by omega
        have hsum3 : (s.area.y.toNat + row) + (row2 - row) = s.area.y.toNat + row2 := by
          omega
        have hlt2 : s.area.y.toNat + row < s.area.y.toNat + row2 := by omega
        have hfull : row2 < s.area.h → row2 - row = s.rows_per_step := fun _ => by omega
        clear hfuel
        obtain ⟨ihsum, ihmem, ihchain, ihmono, ihhead, ihdrop⟩ := ih row2 hfl
        simp only [areaChunksAux, areaIterNext_of_lt row hrow, hrow2]
        refine ⟨?_, ?_, ?_, ?_, ?_, ?_⟩
        · simp only [List.map_cons, List.sum_cons, ihsum, hAh]
          exact hsum2
        · intro c hc
          rcases List.mem_cons.mp hc with hc | hc
          · subst hc; simp only [hAh]; exact ⟨hh1, hh2⟩
          · exact ihmem c hc
        · rw [List.chain'_cons']
          refine ⟨?_, ihchain⟩
          intro b hb
          by_cases h2 : row2 < s.area.h
          · obtain ⟨c', rest', hre, hcy⟩ := ihhead h2
            rw [hre] at hb
            simp only [List.head?_cons, Option.mem_def, Option.some.injEq] at hb
            subst hb
            simp only [hAy, hAh, hcy]
            exact hsum3
          · rw [areaChunksAux_of_le _ row2 (Nat.le_of_not_lt h2)] at hb
            simp at hb
        · rw [List.chain'_cons']
          refine ⟨?_, ihmono⟩
          intro b hb
          by_cases h2 : row2 < s.area.h
          · obtain ⟨c', rest', hre, hcy⟩ := ihhead h2
            rw [hre] at hb
            simp only [List.head?_cons, Option.mem_def, Option.some.injEq] at hb
            subst hb
            simp only [hAy, hcy]
            exact hlt2
          · rw [areaChunksAux_of_le _ row2 (Nat.le_of_not_lt h2)] at hb
            simp at hb
        · intro _
          exact ⟨_, _, rfl, hAy⟩
        · intro c hc
          by_cases h2 : row2 < s.area.h
          · obtain ⟨c', rest', hre, hcy⟩ := ihhead h2
            rw [hre, List.dropLast_cons₂] at hc
            rcases List.mem_cons.mp hc with hc | hc
            · subst hc
              simp only [hAh]
              exact hfull h2
            · rw [← hre] at hc
              exact ihdrop c hc
          · rw [areaChunksAux_of_le _ row2 (Nat.le_of_not_lt h2)] at hc
            simp at hc

theorem byte_pos_eq (x t : Nat) :
    ((((x + t : Nat) : Int) - ((x : Nat) : Int).tdiv 4 * 4).tdiv 4).toNat
      = (x % 4 + t) / 4 := by
  have h1 : ((x : Nat) : Int).tdiv 4 = ((x / 4 : Nat) : Int) := rfl
  have h2 : (((x + t : Nat) : Int) - ((x / 4 : Nat) : Int) * 4)
      = ((x + t - 4 * (x / 4) : Nat) : Int) := by omega
  have h3 : (((x + t - 4 * (x / 4) : Nat) : Int)).tdiv 4
      = (((x + t - 4 * (x / 4)) / 4 : Nat) : Int) := rfl
  rw [h1, h2, h3, Int.toNat_natCast]
  omega

theorem pushPixel_length (x t : Nat) (ay : Int) (w ah : Nat) (yj : Int) (c : Nat)
    (bytes : List Nat)
    (hlen : bytes.length = if t = 0 then 0 else (x % 4 + (t - 1)) / 4 + 1) :
    (pushPixel ⟨(x : Int), ay, w, ah⟩ ⟨((x + t : Nat) : Int), yj, c⟩ bytes).length
      = (x % 4 + t) / 4 + 1 := by
  simp only [pushPixel, List.length_set]
  rw [byte_pos_eq x t, apply_ite List.length, List.length_append]
  simp only [List.length_singleton]
  split_ifs at hlen ⊢ <;> omega

theorem consumePixels_cons (area : Rect) (p : Pixel) (ps : List Pixel)
    (bytes : List Nat) (cnt : Nat) :
    consumePixels area (p :: ps) bytes cnt
      = if p.x ≥ area.x + (area.w : Int) - 1 then (pushPixel area p bytes, cnt + 1, ps)
        else consumePixels area ps (pushPixel area p bytes) (cnt + 1) := rfl

theorem mkRowPix_cons_append (yj xi : Int) (c : Nat) (cs : List Nat)
    (rest : List Pixel) :
    mkRowPix yj xi (c :: cs) ++ rest = ⟨xi, yj, c⟩ :: (mkRowPix yj (xi + 1) cs ++ rest) :=
  rfl

theorem consumePixels_row (x w : Nat) (ay : Int) (ah : Nat) (yj : Int) :
    ∀ (cs : List Nat) (t : Nat) (bytes : List Nat) (cnt : Nat) (rest : List Pixel),
      1 ≤ cs.length → t + cs.length ≤ w →
      (t + cs.length = w ∨ rest = []) →
      bytes.length = (if t = 0 then 0 else (x % 4 + (t - 1)) / 4 + 1) →
      ∃ B : List Nat,
        consumePixels ⟨(x : Int), ay, w, ah⟩
            (mkRowPix yj ((x + t : Nat) : Int) cs ++ rest) bytes cnt
          = (B, cnt + cs.length, if t + cs.length = w then rest else [])
        ∧ B.length = (x % 4 + (t + cs.length - 1)) / 4 + 1 := by
  intro cs
  induction cs with
  | nil => intro t bytes cnt rest h1 _ _ _; simp at h1
  | cons c cs' ih =>
    intro t bytes cnt rest h1 h2 h3 hlen
    have hpush := pushPixel_length x t ay w ah yj c bytes hlen
    by_cases hbreak : t + 1 = w
    · have hcs' : cs' = [] := by
        cases cs' with
        | nil => rfl
        | cons _ _ => simp only [List.length_cons] at h2; omega
      subst hcs'
      refine ⟨pushPixel ⟨(x : Int), ay, w, ah⟩ ⟨((x + t : Nat) : Int), yj, c⟩ bytes,
        ?_, ?_⟩
      · rw [mkRowPix_cons_append, consumePixels_cons]
        dsimp only
        rw [if_pos (show ((x + t : Nat) : Int) ≥ (x : Int) + (w : Int) - 1 by omega)]
        simp only [mkRowPix, List.nil_append, List.length_cons, List.length_nil]
        rw [if_pos (show t + (0 + 1) = w by omega)]
      · rw [hpush]
        simp
    · cases cs' with
      | nil =>
          have hrest : rest = [] := by
            rcases h3 with h3 | h3
            · simp only [List.length_cons, List.length_nil] at h3; omega
            · exact h3
          subst hrest
          refine ⟨pushPixel ⟨(x : Int), ay, w, ah⟩ ⟨((x + t : Nat) : Int), yj, c⟩ bytes,
            ?_, ?_⟩
          · rw [mkRowPix_cons_append, consumePixels_cons]
            dsimp only
            rw [if_neg (show ¬ ((x + t : Nat) : Int) ≥ (x : Int) + (w : Int) - 1 by omega)]
            simp only [mkRowPix, List.nil_append, List.append_nil, consumePixels,
              List.length_cons, List.length_nil]
            rw [if_neg (show ¬ t + (0 + 1) = w by omega)]
          · rw [hpush]
            simp
      | cons c2 cs'' =>
          have hlen2 : (pushPixel ⟨(x : Int), ay, w, ah⟩
              ⟨((x + t : Nat) : Int), yj, c⟩ bytes).length
              = if t + 1 = 0 then 0 else (x % 4 + (t + 1 - 1)) / 4 + 1 := by
            rw [hpush, if_neg (Nat.succ_ne_zero t)]
            simp
          obtain ⟨B, hB, hBlen⟩ := ih (t + 1)
            (pushPixel ⟨(x : Int), ay, w, ah⟩ ⟨((x + t : Nat) : Int), yj, c⟩ bytes)
            (cnt + 1) rest (by simp only [List.length_cons]; omega)
            (by simp only [List.length_cons] at h2 ⊢; omega)
            (by
              rcases h3 with h3 | h3
              · left; simp only [List.length_cons] at h3 ⊢; omega
              · right; exact h3)
            hlen2
          refine ⟨B, ?_, ?_⟩
          · rw [mkRowPix_cons_append, consumePixels_cons]
            dsimp only
            rw [if_neg (show ¬ ((x + t : Nat) : Int) ≥ (x : Int) + (w : Int) - 1 by
              simp only [List.length_cons] at h2; omega)]
            rw [show ((x + t : Nat) : Int) + 1 = ((x + (t + 1) : Nat) : Int) by
              push_cast; ring]
            rw [hB]
            simp only [List.length_cons, Prod.mk.injEq]
            refine ⟨trivial, by omega, ?_⟩
            exact if_congr (by omega) rfl rfl
          · rw [hBlen]
            simp only [List.length_cons]
            congr 2
            omega

theorem pixelSerNext_nil (area : Rect) (row : Int) : pixelSerNext area row [] = none :=
  rfl

theorem pixelSerNext_some (area : Rect) (row : Int) (pixels : List Pixel)
    (B : List Nat) (cnt : Nat) (rest : List Pixel)
    (hc : consumePixels area pixels [] 0 = (B, cnt, rest)) (hB : B ≠ []) :
    pixelSerNext area row pixels
      = some ((⟨u16cast area.x, u16cast (area.y + (row + 1) - 1), cnt % 65536, 1⟩, B),
          (row + 1, rest)) := by
  have hBe : B.isEmpty = false := by
    cases B with
    | nil => exact absurd rfl hB
    | cons _ _ => rfl
  simp only [pixelSerNext, hc]
  simp [hBe]

theorem consumePixels_rest_lt (area : Rect) :
    ∀ (ps : List Pixel) (bytes : List Nat) (cnt : Nat), ps ≠ [] →
      (consumePixels area ps bytes cnt).2.2.length < ps.length := by
  intro ps
  induction ps with
  | nil => intro _ _ h; exact absurd rfl h
  | cons p ps' ih =>
      intro bytes cnt _
      rw [consumePixels_cons]
      split_ifs with h
      · simp
      · cases hps : ps' with
        | nil => subst hps; simp [consumePixels]
        | cons q qs =>
            subst hps
            exact Nat.lt_trans (ih _ _ (by simp)) (Nat.lt_succ_self _)

theorem pixelSerNext_cases (area : Rect) (row : Int) (pixels : List Pixel) :
    pixelSerNext area row pixels = none ∨
    ∃ c rest, pixelSerNext area row pixels = some (c, (row + 1, rest))
      ∧ rest.length < pixels.length := by
  cases pixels with
  | nil => left; exact pixelSerNext_nil area row
  | cons p ps =>
      by_cases he : (consumePixels area (p :: ps) [] 0).1.isEmpty = true
      · left
        simp only [pixelSerNext]
        rw [if_pos he]
      · right
        exact ⟨_, _, by simp only [pixelSerNext]; rw [if_neg he],
          consumePixels_rest_lt area (p :: ps) [] 0 (by simp)⟩

theorem pixelChunksAux_fuel (area : Rect) :
    ∀ (fuel fuel' : Nat) (row : Int) (pixels : List Pixel),
      pixels.length + 1 ≤ fuel → pixels.length + 1 ≤ fuel' →
      pixelChunksAux area fuel row pixels = pixelChunksAux area fuel' row pixels := by
  intro fuel
  induction fuel with
  | zero => intro fuel' row pixels h _; exact absurd h (by omega)
  | succ fuel ih =>
      intro fuel' row pixels h h'
      cases fuel' with
      | zero => exact absurd h' (by omega)
      | succ fuel' =>
          simp only [pixelChunksAux]
          rcases pixelSerNext_cases area row pixels with hn | ⟨c, rest, hs, hlt⟩
          · rw [hn]
          · rw [hs]
            dsimp only
            congr 1
            exact ih fuel' (row + 1) rest (by omega) (by omega)

theorem rowPoints_length (yj : Int) :
    ∀ (k : Nat) (xi : Int), (rowPoints yj xi k).length = k := by
  intro k
  induction k with
  | zero => intro xi; rfl
  | succ k ih => intro xi; simp [rowPoints, ih]

theorem zip_take_append {α β : Type} :
    ∀ (A B : List α) (cs : List β),
      (A ++ B).zip cs = A.zip (cs.take A.length) ++ B.zip (cs.drop A.length) := by
  intro A
  induction A with
  | nil => intro B cs; simp
  | cons a A' ih =>
      intro B cs
      cases cs with
      | nil => simp [List.zip_nil_right]
      | cons c cs' =>
          simp only [List.cons_append, List.zip_cons_cons, List.length_cons,
            List.take_succ_cons, List.drop_succ_cons, ih]

theorem rowPoints_zip_map (yj : Int) :
    ∀ (k : Nat) (xi : Int) (cs : List Nat),
      ((rowPoints yj xi k).zip cs).map (fun pc => (⟨pc.1.1, pc.1.2, pc.2⟩ : Pixel))
        = mkRowPix yj xi (cs.take k) := by
  intro k
  induction k with
  | zero => intro xi cs; simp [rowPoints, mkRowPix]
  | succ k ih =>
      intro xi cs
      cases cs with
      | nil => simp [List.zip_nil_right, mkRowPix]
      | cons c cs' =>
          simp only [rowPoints, List.zip_cons_cons, List.map_cons, List.take_succ_cons]
          rw [ih]
          rfl

theorem mem_rowPoints {yj : Int} :
    ∀ {k : Nat} {xi : Int} {p : Int × Int}, p ∈ rowPoints yj xi k →
      xi ≤ p.1 ∧ p.1 < xi + k ∧ p.2 = yj := by
  intro k
  induction k with
  | zero => intro xi p h; simp [rowPoints] at h
  | succ k ih =>
      intro xi p h
      simp only [rowPoints, List.mem_cons] at h
      rcases h with h | h
      · subst h
        refine ⟨le_rfl, by omega, rfl⟩
      · obtain ⟨h1, h2, h3⟩ := ih h
        exact ⟨by omega, by omega, h3⟩

theorem mem_rectPointsAux {x0 : Int} {w : Nat} :
    ∀ {hk : Nat} {yj : Int} {p : Int × Int}, p ∈ rectPointsAux x0 w yj hk →
      x0 ≤ p.1 ∧ p.1 < x0 + w ∧ yj ≤ p.2 ∧ p.2 < yj + hk := by
  intro hk
  induction hk with
  | zero => intro yj p h; simp [rectPointsAux] at h
  | succ hk ih =>
      intro yj p h
      simp only [rectPointsAux, List.mem_append] at h
      rcases h with h | h
      · obtain ⟨h1, h2, h3⟩ := mem_rowPoints h
        exact ⟨h1, h2, by omega, by omega⟩
      · obtain ⟨h1, h2, h3, h4⟩ := ih h
        exact ⟨h1, h2, by omega, by omega⟩

theorem containsB_of_bounds {r : Rect} {p : Int × Int} (h1 : r.x ≤ p.1)
    (h2 : p.1 < r.x + (r.w : Int)) (h3 : r.y ≤ p.2) (h4 : p.2 < r.y + (r.h : Int)) :
    r.containsB p = true := by
  simp only [Rect.containsB, Bool.and_eq_true, decide_eq_true_eq]
  exact ⟨⟨⟨h1, h2⟩, h3⟩, h4⟩

theorem intersection_of_subRect {ax ay : Int} {aw ah : Nat} {b : Rect}
    (hsub : (Rect.mk ax ay aw ah).subRect b) (hw : 1 ≤ aw) (hh : 1 ≤ ah) :
    Rect.intersection ⟨ax, ay, aw, ah⟩ b = ⟨ax, ay, aw, ah⟩ := by
  obtain ⟨h1, h2, h3, h4⟩ := hsub
  replace h1 : b.x ≤ ax := h1
  replace h2 : ax + (aw : Int) ≤ b.x + (b.w : Int) := h2
  replace h3 : b.y ≤ ay := h3
  replace h4 : ay + (ah : Int) ≤ b.y + (b.h : Int) := h4
  simp only [Rect.intersection]
  rw [max_eq_left h1, max_eq_left h3, min_eq_left h2, min_eq_left h4]
  rw [if_pos ⟨by omega, by omega⟩]
  simp only [Rect.mk.injEq]
  refine ⟨trivial, trivial, by omega, by omega⟩

theorem convert_eq_zip_map (area bb : Rect) (colors : List Nat)
    (hsub : area.subRect bb) (hw : 1 ≤ area.w) (hh : 1 ≤ area.h) :
    convert_color_to_pixel_iterator area bb colors
      = ((rectPoints area).zip colors).map fun pc => ⟨pc.1.1, pc.1.2, pc.2⟩ := by
  obtain ⟨ax, ay, aw, ah⟩ := area
  simp only [convert_color_to_pixel_iterator]
  rw [intersection_of_subRect hsub hw hh]
  congr 1
  apply List.filter_eq_self.mpr
  intro pc hpc
  obtain ⟨pt, cc⟩ := pc
  have hp : pt ∈ rectPointsAux ax aw ay ah := (List.of_mem_zip hpc).1
  obtain ⟨g1, g2, g3, g4⟩ := mem_rectPointsAux hp
  exact containsB_of_bounds g1 g2 g3 g4

theorem pixelChunksAux_spec (x y w hrect : Nat) (hw : 1 ≤ w) (hwle : w ≤ 65535)
    (hx : x < 65536) :
    ∀ (hrem j : Nat) (colors : List Nat) (fuel : Nat),
      colors.length < w * hrem →
      y + j + hrem ≤ 65536 →
      colors.length + 1 ≤ fuel →
      ((pixelChunksAux ⟨(x : Int), (y : Int), w, hrect⟩ fuel (j : Int)
          (((rectPointsAux (x : Int) w ((y + j : Nat) : Int) hrem).zip colors).map
            fun pc => ⟨pc.1.1, pc.1.2, pc.2⟩)).map Prod.fst
        = ((List.range (colors.length / w)).map fun i =>
            (⟨x, y + j + i, w, 1⟩ : AreaImgInfo))
          ++ (if colors.length % w = 0 then []
              else [⟨x, y + j + colors.length / w, colors.length % w, 1⟩]))
      ∧ ∀ c ∈ pixelChunksAux ⟨(x : Int), (y : Int), w, hrect⟩ fuel (j : Int)
            (((rectPointsAux (x : Int) w ((y + j : Nat) : Int) hrem).zip colors).map
              fun pc => ⟨pc.1.1, pc.1.2, pc.2⟩),
          (c.2).length = (x % 4 + (c.1.area_w - 1)) / 4 + 1 := by
  intro hrem
  induction hrem with
  | zero =>
      intro j colors fuel hlen _ _
      simp at hlen
  | succ hrem ih =>
      intro j colors fuel hlen hy hfuel
      have hux : u16cast ((x : Nat) : Int) = x := by unfold u16cast; omega
      have huy : u16cast ((y : Int) + ((j : Int) + 1) - 1) = y + j := by
        unfold u16cast; omega
      have hpts : (((rectPointsAux (x : Int) w ((y + j : Nat) : Int) (hrem + 1)).zip
            colors).map (fun pc => (⟨pc.1.1, pc.1.2, pc.2⟩ : Pixel)))
          = mkRowPix ((y + j : Nat) : Int) (x : Int) (colors.take w)
            ++ ((rectPointsAux (x : Int) w (((y + j : Nat) : Int) + 1) hrem).zip
                (colors.drop w)).map (fun pc => (⟨pc.1.1, pc.1.2, pc.2⟩ : Pixel)) := by
        rw [show rectPointsAux (x : Int) w ((y + j : Nat) : Int) (hrem + 1)
            = rowPoints ((y + j : Nat) : Int) (x : Int) w
              ++ rectPointsAux (x : Int) w (((y + j : Nat) : Int) + 1) hrem from rfl]
        rw [zip_take_append, List.map_append, rowPoints_length]
        rw [rowPoints_zip_map]
        simp [List.take_take]
      by_cases hcase : colors.length < w
      · have htake : colors.take w = colors := List.take_of_length_le (by omega)
        have hdrop : colors.drop w = [] := List.drop_eq_nil_of_le (by omega)
        rw [htake, hdrop, List.zip_nil_right, List.map_nil, List.append_nil] at hpts
        rcases Nat.eq_zero_or_pos colors.length with hn0 | hnpos
        · have hc0 : colors = [] := List.length_eq_zero.mp hn0
          subst hc0
          cases fuel with
          | zero => omega
          | succ fuel =>
              rw [hpts]
              simp only [mkRowPix, pixelChunksAux, pixelSerNext_nil]
              exact ⟨by simp, by simp⟩
        · obtain ⟨B, hB, hBlen⟩ := consumePixels_row x w (y : Int) hrect
            ((y + j : Nat) : Int) colors 0 [] 0 [] hnpos (by omega) (Or.inr rfl)
            (by simp)
          simp only [Nat.add_zero, Nat.zero_add, List.append_nil] at hB hBlen
          rw [if_neg (by omega : ¬ colors.length = w)] at hB
          have hBne : B ≠ [] := by
            intro hBe; rw [hBe] at hBlen; simp at hBlen
          have hnext := pixelSerNext_some ⟨(x : Int), (y : Int), w, hrect⟩ (j : Int)
            (mkRowPix ((y + j : Nat) : Int) (x : Int) colors) B colors.length [] hB hBne
          cases fuel with
          | zero => omega
          | succ fuel =>
              rw [hpts]
              simp only [pixelChunksAux]
              rw [hnext]
              dsimp only
              have hrest0 : pixelChunksAux ⟨(x : Int), (y : Int), w, hrect⟩ fuel
                  ((j : Int) + 1) [] = [] := by
                cases fuel with
                | zero => rfl
                | succ fuel => simp only [pixelChunksAux, pixelSerNext_nil]
              rw [hrest0]
              constructor
              · simp only [List.map_cons, List.map_nil, hux, huy]
                rw [Nat.div_eq_of_lt hcase, Nat.mod_eq_of_lt hcase]
                rw [if_neg (by omega : ¬ colors.length = 0)]
                simp only [List.range_zero, List.map_nil, List.nil_append,
                  Nat.add_zero]
                rw [Nat.mod_eq_of_lt (by omega : colors.length < 65536)]
              · intro c hc
                simp only [List.mem_singleton] at hc
                subst hc
                simp only [hBlen]
                rw [Nat.mod_eq_of_lt (by omega : colors.length < 65536)]
      · push_neg at hcase
        have htlen : (colors.take w).length = w := by rw [List.length_take]; omega
        obtain ⟨B, hB, hBlen⟩ := consumePixels_row x w (y : Int) hrect
          ((y + j : Nat) : Int) (colors.take w) 0 [] 0
          (((rectPointsAux (x : Int) w (((y + j : Nat) : Int) + 1) hrem).zip
            (colors.drop w)).map (fun pc => (⟨pc.1.1, pc.1.2, pc.2⟩ : Pixel)))
          (by omega) (by omega) (Or.inl (by omega)) (by simp)
        simp only [Nat.add_zero, Nat.zero_add, htlen] at hB hBlen
        simp only [if_true] at hB
        have hBne : B ≠ [] := by
          intro hBe; rw [hBe] at hBlen; simp at hBlen
        have hnext := pixelSerNext_some ⟨(x : Int), (y : Int), w, hrect⟩ (j : Int)
          (mkRowPix ((y + j : Nat) : Int) (x : Int) (colors.take w)
            ++ ((rectPointsAux (x : Int) w (((y + j : Nat) : Int) + 1) hrem).zip
                (colors.drop w)).map (fun pc => (⟨pc.1.1, pc.1.2, pc.2⟩ : Pixel)))
          B w _ hB hBne
        cases fuel with
        | zero => omega
        | succ fuel =>
            rw [hpts]
            simp only [pixelChunksAux]
            rw [hnext]
            dsimp only
            have hj1 : ((j : Nat) : Int) + 1 = ((j + 1 : Nat) : Int) := by push_cast; ring
            have hyj1 : (((y + j : Nat) : Int)) + 1 = ((y + (j + 1) : Nat) : Int) := by
              push_cast; ring
            rw [hj1, hyj1]
            rw [Nat.mul_succ] at hlen
            have hdlen : (colors.drop w).length = colors.length - w := by
              rw [List.length_drop]
            obtain ⟨ih1, ih2⟩ := ih (j + 1) (colors.drop w) fuel
              (by rw [hdlen]; omega) (by omega) (by rw [hdlen]; omega)
            have huy2 : u16cast ((y : Int) + ((j + 1 : Nat) : Int) - 1) = y + j := by
              unfold u16cast; omega
            have hdiv : colors.length / w = (colors.length - w) / w + 1 := by
              rw [Nat.div_eq colors.length w,
                if_pos (show 0 < w ∧ w ≤ colors.length from ⟨by omega, hcase⟩)]
            have hmod : colors.length % w = (colors.length - w) % w := by
              rw [Nat.mod_eq colors.length w,
                if_pos (show 0 < w ∧ w ≤ colors.length from ⟨by omega, hcase⟩)]
            constructor
            · simp only [List.map_cons, hux, huy2]
              rw [Nat.mod_eq_of_lt (by omega : w < 65536)]
              rw [ih1, hdlen, hdiv, hmod]
              rw [List.range_succ_eq_map, List.map_cons, List.map_map,
                List.cons_append]
              congr 1
              congr 1
              · refine List.map_congr_left fun i _ => ?_
                simp only [Function.comp_apply, AreaImgInfo.mk.injEq]
                refine ⟨trivial, by omega, trivial, trivial⟩
              · have heq : y + (j + 1) + (colors.length - w) / w
                    = y + j + ((colors.length - w) / w + 1) := by omega
                rw [heq]
            · intro c hc
              simp only [List.mem_cons] at hc
              rcases hc with hc | hc
              · subst hc
                simp only [hBlen]
                rw [Nat.mod_eq_of_lt (by omega : w < 65536)]
              · exact ih2 c hc

theorem mem_of_getLast?_eq {α : Type} {l : List α} {a : α}
    (h : l.getLast? = some a) : a ∈ l := by
  obtain ⟨hne, heq⟩ := List.mem_getLast?_eq_getLast (show a ∈ l.getLast? by rw [h]; rfl)
  rw [heq]
  exact List.getLast_mem hne

theorem rectPointsAux_length (x0 : Int) (w : Nat) :
    ∀ (hk : Nat) (yj : Int), (rectPointsAux x0 w yj hk).length = w * hk := by
  intro hk
  induction hk with
  | zero => intro yj; rfl
  | succ hk ih =>
      intro yj
      simp only [rectPointsAux, List.length_append, rowPoints_length, ih, Nat.mul_succ]
      omega

/- ------------------------------------------------------------------ -/
/- Claim theorems                                                      -/
/- ------------------------------------------------------------------ -/

/-- C1 (amended): for every rectangle whose row range lies in the u16 domain
(`0 ≤ y` and `y + h ≤ 65535`) and every buffer-size cap accepted by
`AreaSerializer::new`, the emitted chunk heights sum to the rectangle height,
consecutive chunks are contiguous (each starts exactly one row below the end
of the previous one, so the row ranges are pairwise disjoint), chunks are
ordered top-to-bottom (strictly increasing `area_y`), every chunk covers at
least one row, the first chunk starts at the rectangle's top row, and
iterating further emits no additional chunks. -/
theorem c1_area_chunks_cover (x y : Int) (w h color buffer_size : Nat)
    (s : AreaSerializer)
    (hnew : AreaSerializer.new ⟨x, y, w, h⟩ color buffer_size = some s)
    (hy : 0 ≤ y) (hb : y.toNat + h ≤ 65535) :
    ((s.chunks.map fun c => c.1.area_h).sum = h)
    ∧ List.Chain' (fun a b => a.1.area_y + a.1.area_h = b.1.area_y) s.chunks
    ∧ List.Chain' (fun a b => a.1.area_y < b.1.area_y) s.chunks
    ∧ (∀ c ∈ s.chunks, 1 ≤ c.1.area_h)
    ∧ (0 < h → ∃ c rest, s.chunks = c :: rest ∧ c.1.area_y = y.toNat)
    ∧ (∀ extra, areaChunksAux s (h + extra) 0 = s.chunks) := by
  obtain ⟨harea, hrpseq, hrps, heven, hepr⟩ := AreaSerializer.new_some hnew
  have hh : s.area.h = h := by rw [harea]
  have hy' : 0 ≤ s.area.y := by rw [harea]; exact hy
  have hb' : s.area.y.toNat + s.area.h ≤ 65535 := by rw [harea]; exact hb
  have hfa : ∀ extra, areaChunksAux s (h + extra) 0 = s.chunks := by
    intro extra
    exact areaChunksAux_fuel hrps (h + extra) s.area.h 0 (by omega) (by omega)
  obtain ⟨hsum, hmem, hchain, hmono, hhead, hdrop⟩ :=
    areaChunksAux_spec s hrps hy' hb' s.area.h 0 (Nat.le_add_left _ _)
  refine ⟨?_, hchain, hmono, fun c hc => (hmem c hc).1, ?_, hfa⟩
  · simp only [AreaSerializer.chunks]
    rw [hsum, hh]
    exact Nat.sub_zero h
  · intro hpos
    obtain ⟨c, rest, hre, hcy⟩ := hhead (by rw [hh]; exact hpos)
    refine ⟨c, rest, hre, ?_⟩
    simp [hcy, harea]

/-- Witness for C1 at the rectangle `(0, 0, 4, 3)`, fill color `0xA`, buffer
cap 4: two chunks of heights 2 and 1. -/
theorem c1_area_chunks_cover_witness :
    AreaSerializer.new ⟨0, 0, 4, 3⟩ 10 4
        = some ⟨⟨0, 0, 4, 3⟩, 2, List.replicate 4 170⟩ ∧
    (((⟨⟨0, 0, 4, 3⟩, 2, List.replicate 4 170⟩ : AreaSerializer).chunks.map
        fun c => c.1.area_h).sum = 3) :=
  ⟨by decide,
   (c1_area_chunks_cover 0 0 4 3 10 4 ⟨⟨0, 0, 4, 3⟩, 2, List.replicate 4 170⟩
      (by decide) (by decide) (by decide)).1⟩

/-- Counterexample for C1 as stated: the rectangle `(0, -3, 1, 6)` with buffer
cap 2 is accepted by `AreaSerializer::new`, but the `as u16` cast of
`top_left.y + start_row` wraps for the negative `y`, so the emitted `area_y`
sequence `[65533, 65534, 65535, 0, 1, 2]` is not strictly increasing. -/
theorem c1_counterexample :
    (AreaSerializer.new ⟨0, -3, 1, 6⟩ 10 2).isSome = true ∧
    ((AreaSerializer.new ⟨0, -3, 1, 6⟩ 10 2).elim [] AreaSerializer.chunks).map
        (fun c => c.1.area_y) = [65533, 65534, 65535, 0, 1, 2] ∧
    ¬ List.Chain' (· < ·) [65533, 65534, 65535, 0, 1, (2 : Nat)] :=
  ⟨by decide, by decide, by norm_num [List.chain'_cons]⟩

/-- C4 (amended): when the (even) staging-buffer cap cannot hold even one row
of the requested rectangle (`buffer_size / bytes_per_row = 0` with
`bytes_per_row = get_entires_per_row * 2`), `AreaSerializer::new` panics via
its `assert!` — modeled as `none` — rather than returning an error value (the
driver's error type has no capacity variant); when construction succeeds,
every chunk except the last covers exactly
`min(buffer_size / bytes_per_row, height)` whole rows, and every chunk
(including the last) covers at least one row. -/
theorem c4_capacity_and_chunk_rows (area : Rect) (color buffer_size : Nat) :
    (buffer_size % 2 = 0 → buffer_size / (get_entires_per_row area * 2) = 0 →
      AreaSerializer.new area color buffer_size = none)
    ∧ (∀ s, AreaSerializer.new area color buffer_size = some s →
        0 ≤ area.y → area.y.toNat + area.h ≤ 65535 →
        (∀ c ∈ s.chunks.dropLast,
          c.1.area_h = min (buffer_size / (get_entires_per_row area * 2)) area.h)
        ∧ (∀ c ∈ s.chunks, 1 ≤ c.1.area_h)) := by
  constructor
  · intro h1 h0
    simp only [AreaSerializer.new]
    split_ifs with g1 g2 g3
    · rfl
    · rfl
    · rfl
    · refine absurd ?_ g3
      rw [h0]
      omega
  · intro s hnew hy hb
    obtain ⟨harea, hrpseq, hrps, _, _⟩ := AreaSerializer.new_some hnew
    have hy' : 0 ≤ s.area.y := by rw [harea]; exact hy
    have hb' : s.area.y.toNat + s.area.h ≤ 65535 := by rw [harea]; exact hb
    obtain ⟨_, hmem, _, _, _, hdrop⟩ :=
      areaChunksAux_spec s hrps hy' hb' s.area.h 0 (by omega)
    constructor
    · intro c hc
      exact (hdrop c (by simpa [AreaSerializer.chunks] using hc)).trans hrpseq
    · intro c hc
      exact (hmem c (by simpa [AreaSerializer.chunks] using hc)).1

/-- Witness for C4: a buffer cap of 0 (even, smaller than one 8-byte row of
the rectangle `(0, 0, 4, 3)`) makes construction fail. -/
theorem c4_capacity_and_chunk_rows_witness :
    AreaSerializer.new ⟨0, 0, 4, 3⟩ 10 0 = none :=
  (c4_capacity_and_chunk_rows ⟨0, 0, 4, 3⟩ 10 0).1 (by decide) (by decide)

/-- Counterexample for C4 as stated: for the rectangle `(0, 0, 4, 3)` (2 bytes
per row) and cap 4, `floor(max_size / bytes_per_row) = 2`, but the emitted
chunks cover 2 and 1 rows — the last chunk covers fewer than
`floor(max_size / bytes_per_row)` rows. -/
theorem c4_counterexample :
    ((AreaSerializer.new ⟨0, 0, 4, 3⟩ 10 4).elim [] AreaSerializer.chunks).map
        (fun c => c.1.area_h) = [2, 1] ∧
    (4 : Nat) / (get_entires_per_row ⟨0, 0, 4, 3⟩ * 2) = 2 ∧
    [2, 1] ≠ [2, (2 : Nat)] :=
  ⟨by decide, by decide, by decide⟩

/-- C2 (amended): for every left edge `x` and width `w` such that the `u32`
sum `w + (x mod 4)` does not overflow, the number of 16-bit words allocated
per row equals `ceil((w + (x mod 4)) / 4)`; in `Nat` arithmetic the
right-hand side is `(w + (x mod 4) + 3) / 4`. -/
theorem c2_entries_per_row_ceil (x y : Int) (w h : Nat)
    (hw : w + (x % 4).toNat < 4294967296) :
    get_entires_per_row ⟨x, y, w, h⟩ = (w + (x % 4).toNat + 3) / 4 := by
  simp only [get_entires_per_row, u32cast]
  split_ifs <;> omega

/-- Witness for C2: the spec's four examples, `(offset, width)` of
`(0,5) ↦ 2`, `(3,2) ↦ 2`, `(1,4) ↦ 2`, `(4,1) ↦ 1` (offset 4 wraps to 0). -/
theorem c2_entries_per_row_ceil_witness :
    get_entires_per_row ⟨0, 0, 5, 1⟩ = 2 ∧ get_entires_per_row ⟨3, 0, 2, 1⟩ = 2 ∧
    get_entires_per_row ⟨1, 0, 4, 1⟩ = 2 ∧ get_entires_per_row ⟨4, 0, 1, 1⟩ = 1 :=
  ⟨(c2_entries_per_row_ceil 0 0 5 1 (by decide)).trans (by decide),
   (c2_entries_per_row_ceil 3 0 2 1 (by decide)).trans (by decide),
   (c2_entries_per_row_ceil 1 0 4 1 (by decide)).trans (by decide),
   (c2_entries_per_row_ceil 4 0 1 1 (by decide)).trans (by decide)⟩

/-- Counterexample for C2 as stated: at offset 1 and width `2^32 - 1` the u32
addition `width + alignment_pixels` wraps to 0, so the code yields 0 words per
row while `ceil((width + offset mod 4) / 4) = 2^30`. -/
theorem c2_counterexample :
    get_entires_per_row ⟨1, 0, 4294967295, 1⟩ = 0 ∧
    (4294967295 + ((1 : Int) % 4).toNat + 3) / 4 = 1073741824 ∧
    (0 : Nat) ≠ 1073741824 := by
  refine ⟨by decide, by decide, by decide⟩

/-- C6: applying the 90-degree rotation transform four times to any
`AreaImgInfo` (u16 coordinates, so `area_x, area_y < 2^16`) on a panel of
width `pw` and height `ph` returns the original rectangle. -/
theorem c6_rotate90_four_times (pw ph : Nat) (a : AreaImgInfo)
    (hx : a.area_x < 65536) (hy : a.area_y < 65536) :
    rotate_area_info .rotate90 pw ph (rotate_area_info .rotate90 pw ph
      (rotate_area_info .rotate90 pw ph (rotate_area_info .rotate90 pw ph a))) = a := by
  cases a with
  | mk x y w h =>
    simp only [rotate_area_info]
    rw [sub16_sub16 _ x hx, sub16_sub16 _ y hy]

/-- Witness for C6 at a concrete rectangle and panel size. -/
theorem c6_rotate90_four_times_witness :
    rotate_area_info .rotate90 1872 1404 (rotate_area_info .rotate90 1872 1404
      (rotate_area_info .rotate90 1872 1404 (rotate_area_info .rotate90 1872 1404
        ⟨10, 20, 30, 40⟩))) = ⟨10, 20, 30, 40⟩ :=
  c6_rotate90_four_times 1872 1404 ⟨10, 20, 30, 40⟩ (by decide) (by decide)

/-- C7: for every 16-bit command code `cmd`, `write_command` emits exactly the
four bytes `[0x60, 0x00, hi cmd, lo cmd]`, and for every 16-bit value `val`,
`write_data` (the spec's `write_word`) emits exactly `[0x00, 0x00, hi val, lo val]`. -/
theorem c7_protocol_framing (cmd val : Nat) (hc : cmd < 65536) (hv : val < 65536) :
    write_command_frame cmd = [0x60, 0x00, cmd / 256, cmd % 256] ∧
    write_data_frame val = [0x00, 0x00, val / 256, val % 256] := by
  unfold write_command_frame write_data_frame
  have h1 : cmd / 256 % 256 = cmd / 256 := Nat.mod_eq_of_lt (by omega)
  have h2 : val / 256 % 256 = val / 256 := Nat.mod_eq_of_lt (by omega)
  rw [h1, h2]
  exact ⟨rfl, rfl⟩

/-- Witness for C7: the spec's examples `write_command(0x0302)` and
`write_word(0xABCD)`. -/
theorem c7_protocol_framing_witness :
    write_command_frame 0x0302 = [0x60, 0x00, 0x03, 0x02] ∧
    write_data_frame 0xABCD = [0x00, 0x00, 0xAB, 0xCD] :=
  ⟨(c7_protocol_framing 0x0302 0xABCD (by decide) (by decide)).1.trans (by decide),
   (c7_protocol_framing 0x0302 0xABCD (by decide) (by decide)).2.trans (by decide)⟩

/-- C8: `write_multi_data` fails with `BufferAlignment` exactly when the
payload length is odd; on even lengths it emits the 2-byte data prefix once
followed by the raw payload. -/
theorem c8_write_block_alignment (data : List Nat) :
    (write_multi_data data
      = if data.length % 2 = 1 then .error .bufferAlignment
        else .ok ([0x00, 0x00] ++ data)) ∧
    (write_multi_data data = .error .bufferAlignment ↔ data.length % 2 = 1) := by
  unfold write_multi_data
  rcases Nat.mod_two_eq_zero_or_one data.length with h | h <;> simp [h]

/-- C9: every driver value in the `Run` state reachable through the public API
has `dev_info = Some _`; consequently `get_dev_info`, `size` and
`rotate_area_info` (which unwrap `dev_info`) do not panic there. -/
theorem c9_run_dev_info_some (d : DriverState) (hr : Reachable d)
    (hrun : d.phase = .run) :
    d.dev_info.isSome = true ∧ (get_dev_info d).isSome = true ∧
    (∀ rot, (sizeDriver rot d).isSome = true) ∧
    (∀ rot area, (rotate_area_info_driver rot d area).isSome = true) := by
  have key : ∀ e : DriverState, Reachable e → e.phase ≠ .off → e.dev_info.isSome = true := by
    intro e he
    induction he with
    | new => intro h; exact absurd rfl h
    | attach info => intro _; rfl
    | init d info _ _ _ => intro _; rfl
    | sleep d hd hrun ih => intro _; exact ih (by rw [hrun]; intro h; cases h)
    | standby d hd hrun ih => intro _; exact ih (by rw [hrun]; intro h; cases h)
    | sysRun d hd hpd ih => intro _; exact ih (by rw [hpd]; intro h; cases h)
  have hsome : d.dev_info.isSome = true := key d hr (by rw [hrun]; intro h; cases h)
  obtain ⟨info, hinfo⟩ := Option.isSome_iff_exists.mp hsome
  refine ⟨hsome, hsome, ?_, ?_⟩
  · intro rot; simp [sizeDriver, hinfo]
  · intro rot area; simp [rotate_area_info_driver, hinfo]

/-- Witness for C9 at a concrete reachable `Run` driver obtained via `attach`
followed by `standby` and `sys_run`. -/
theorem c9_run_dev_info_some_witness :
    (sysRunDriver (standbyDriver (attachDriver ⟨1872, 1404, 0, "v1", "l1"⟩))).dev_info.isSome
      = true :=
  (c9_run_dev_info_some _
    (Reachable.sysRun _ (Reachable.standby _ (Reachable.attach _) rfl) rfl) rfl).1

/-- C10: whenever the panel height is positive, the coordinate guard of
`draw_iter` accepts every coordinate (its second disjunct `y ≥ 0 || y < height`
is a tautology there), so `draw_iter` issues one `load_image_area` transaction
for every pixel of the input iterator — including out-of-panel and negative
coordinates — with `x` and `y` truncated `as u16`. -/
theorem c10_draw_iter_guard_total (width height : Int) (hh : 0 < height)
    (pixels : List Pixel) :
    (∀ p : Pixel, draw_iter_guard width height p = true) ∧
    draw_iter_calls width height pixels
      = pixels.map fun p => (⟨u16cast p.x, u16cast p.y, 1, 1⟩, draw_iter_data p) := by
  have hg : ∀ p : Pixel, draw_iter_guard width height p = true := by
    intro p
    unfold draw_iter_guard
    simp only [Bool.or_eq_true, Bool.and_eq_true, decide_eq_true_eq]
    rcases le_or_lt 0 p.y with h | h
    · exact Or.inr (Or.inl h)
    · exact Or.inr (Or.inr (h.trans hh))
  refine ⟨hg, ?_⟩
  induction pixels with
  | nil => rfl
  | cons p ps ih =>
      simp only [draw_iter_calls, List.filterMap_cons, hg p, if_true, List.map_cons] at ih ⊢
      rw [ih]

/-- Witness for C10: a panel of height 50 and a single pixel at `(-1, -1)`
with color 5 still produces exactly one transaction, at the truncated
coordinates `(65535, 65535)`. -/
theorem c10_draw_iter_guard_total_witness :
    (0 : Int) < 50 ∧
    draw_iter_calls 100 50 [⟨-1, -1, 5⟩]
      = [(⟨65535, 65535, 1, 1⟩, [0x00, 0x50])] :=
  ⟨by decide,
   ((c10_draw_iter_guard_total 100 50 (by decide) [⟨-1, -1, 5⟩]).2).trans (by decide)⟩

/-- C3: for the pixel-sequence serializer fed by
`convert_color_to_pixel_iterator` over a rectangle inside the bounding box,
whenever the color source yields fewer values than the rectangle requires
(`colors.length < w * h`), the serializer stops early: it emits exactly
`colors.length / w` full-width single-row chunks and — when the last consumed
row is only partially filled (`colors.length % w ≠ 0`) — one final chunk whose
`area_w` is the number of pixels actually consumed in that row
(`colors.length % w`, narrower than `w`); it emits no further chunks no matter
how much longer the iterator is driven, and missing pixels are never padded
with assumed colors: every chunk's word buffer covers exactly the consumed
pixels. -/
theorem c3_pixel_serializer_early_exit (x y w h : Nat) (bb : Rect)
    (colors : List Nat) (hw : 1 ≤ w) (hwle : w ≤ 65535) (hx : x < 65536)
    (hh : 1 ≤ h) (hyh : y + h ≤ 65536) (hlen : colors.length < w * h)
    (hsub : (Rect.mk (x : Int) (y : Int) w h).subRect bb) :
    ((PixelSerializer.chunks ⟨(x : Int), (y : Int), w, h⟩
        (convert_color_to_pixel_iterator ⟨(x : Int), (y : Int), w, h⟩ bb colors)).map
          Prod.fst
      = ((List.range (colors.length / w)).map fun i =>
          (⟨x, y + i, w, 1⟩ : AreaImgInfo))
        ++ (if colors.length % w = 0 then []
            else [⟨x, y + colors.length / w, colors.length % w, 1⟩]))
    ∧ (∀ c ∈ PixelSerializer.chunks ⟨(x : Int), (y : Int), w, h⟩
          (convert_color_to_pixel_iterator ⟨(x : Int), (y : Int), w, h⟩ bb colors),
        (c.2).length = (x % 4 + (c.1.area_w - 1)) / 4 + 1)
    ∧ (colors.length % w ≠ 0 →
        ∃ B, (PixelSerializer.chunks ⟨(x : Int), (y : Int), w, h⟩
            (convert_color_to_pixel_iterator ⟨(x : Int), (y : Int), w, h⟩ bb
              colors)).getLast?
            = some (⟨x, y + colors.length / w, colors.length % w, 1⟩, B)
          ∧ B.length = (x % 4 + (colors.length % w - 1)) / 4 + 1
          ∧ colors.length % w < w)
    ∧ (∀ extra, pixelChunksAux ⟨(x : Int), (y : Int), w, h⟩
          ((convert_color_to_pixel_iterator ⟨(x : Int), (y : Int), w, h⟩ bb
            colors).length + 1 + extra) 0
          (convert_color_to_pixel_iterator ⟨(x : Int), (y : Int), w, h⟩ bb colors)
        = PixelSerializer.chunks ⟨(x : Int), (y : Int), w, h⟩
            (convert_color_to_pixel_iterator ⟨(x : Int), (y : Int), w, h⟩ bb
              colors)) := by
  have hpix : convert_color_to_pixel_iterator ⟨(x : Int), (y : Int), w, h⟩ bb colors
      = ((rectPointsAux (x : Int) w ((y + 0 : Nat) : Int) h).zip colors).map
          (fun pc => (⟨pc.1.1, pc.1.2, pc.2⟩ : Pixel)) :=
    convert_eq_zip_map _ bb colors hsub hw hh
  have hplen : (convert_color_to_pixel_iterator ⟨(x : Int), (y : Int), w, h⟩ bb
      colors).length = colors.length := by
    rw [hpix]
    simp only [List.length_map, List.length_zip, rectPointsAux_length]
    omega
  obtain ⟨s1, s2⟩ := pixelChunksAux_spec x y w h hw hwle hx h 0 colors
    (colors.length + 1) hlen (by omega) (le_refl _)
  have hch : PixelSerializer.chunks ⟨(x : Int), (y : Int), w, h⟩
      (convert_color_to_pixel_iterator ⟨(x : Int), (y : Int), w, h⟩ bb colors)
      = pixelChunksAux ⟨(x : Int), (y : Int), w, h⟩ (colors.length + 1)
        ((0 : Nat) : Int)
        (((rectPointsAux (x : Int) w ((y + 0 : Nat) : Int) h).zip colors).map
          (fun pc => (⟨pc.1.1, pc.1.2, pc.2⟩ : Pixel))) := by
    unfold PixelSerializer.chunks
    rw [hplen, hpix]
    rfl
  have hc1 : (PixelSerializer.chunks ⟨(x : Int), (y : Int), w, h⟩
      (convert_color_to_pixel_iterator ⟨(x : Int), (y : Int), w, h⟩ bb colors)).map
        Prod.fst
      = ((List.range (colors.length / w)).map fun i =>
          (⟨x, y + i, w, 1⟩ : AreaImgInfo))
        ++ (if colors.length % w = 0 then []
            else [⟨x, y + colors.length / w, colors.length % w, 1⟩]) := by
    rw [hch]
    exact s1
  refine ⟨hc1, ?_, ?_, ?_⟩
  · intro c hc
    rw [hch] at hc
    exact s2 c hc
  · intro hr
    have hfin : (PixelSerializer.chunks ⟨(x : Int), (y : Int), w, h⟩
        (convert_color_to_pixel_iterator ⟨(x : Int), (y : Int), w, h⟩ bb colors)).map
          Prod.fst
        = ((List.range (colors.length / w)).map fun i =>
            (⟨x, y + i, w, 1⟩ : AreaImgInfo))
          ++ [⟨x, y + colors.length / w, colors.length % w, 1⟩] := by
      rw [hc1, if_neg hr]
    have hlast : (PixelSerializer.chunks ⟨(x : Int), (y : Int), w, h⟩
        (convert_color_to_pixel_iterator ⟨(x : Int), (y : Int), w, h⟩ bb
          colors)).getLast?.map Prod.fst
        = some ⟨x, y + colors.length / w, colors.length % w, 1⟩ := by
      rw [← List.getLast?_map, hfin, List.getLast?_concat]
    cases hgl : (PixelSerializer.chunks ⟨(x : Int), (y : Int), w, h⟩
        (convert_color_to_pixel_iterator ⟨(x : Int), (y : Int), w, h⟩ bb
          colors)).getLast? with
    | none => rw [hgl] at hlast; simp at hlast
    | some cpair =>
        obtain ⟨cf, cB⟩ := cpair
        rw [hgl] at hlast
        simp only [Option.map_some', Option.some.injEq] at hlast
        refine ⟨cB, ?_, ?_, Nat.mod_lt _ (by omega)⟩
        · rw [hlast]
        · have hm := mem_of_getLast?_eq hgl
          rw [hch] at hm
          have hlen2 := s2 (cf, cB) hm
          rw [hlast] at hlen2
          exact hlen2
  · intro extra
    unfold PixelSerializer.chunks
    exact pixelChunksAux_fuel ⟨(x : Int), (y : Int), w, h⟩ _ _ 0 _ (by omega)
      (le_refl _)

/-- Witness for C3: the repository's own early-exit example — rectangle
`(3, 1, 3, 2)` in a 10x10 bounding box with only 5 colors yields a full first
row `(3, 1, 3, 1)` and a final narrower chunk `(3, 2, 2, 1)`. -/
theorem c3_pixel_serializer_early_exit_witness :
    (PixelSerializer.chunks ⟨3, 1, 3, 2⟩
        (convert_color_to_pixel_iterator ⟨3, 1, 3, 2⟩ ⟨0, 0, 10, 10⟩
          [12, 13, 14, 1, 2])).map Prod.fst
      = [⟨3, 1, 3, 1⟩, ⟨3, 2, 2, 1⟩] :=
  ((c3_pixel_serializer_early_exit 3 1 3 2 ⟨0, 0, 10, 10⟩ [12, 13, 14, 1, 2]
      (by decide) (by decide) (by decide) (by decide) (by decide) (by decide)
      ⟨by decide, by decide, by decide, by decide⟩).1).trans (by decide)

end It8951
